import Mathlib

/-!
Verification of the modem repository's SMS PDU codec and AT line classifier.

The Go sources are embedded shallowly: Go strings become `List Char`
(Go iterates strings rune by rune in all the embedded code paths),
Go byte slices become `List Nat` with values below 256, and machine
arithmetic is modelled on `Nat` with explicit `% 256` / `% 128` where the
source truncates.  Fallible Go functions returning `(T, error)` become
`Option T`.
-/

set_option maxRecDepth 100000

namespace Pdu

/-! ## GSM 7-bit tables (src/pdu/encoding.go)

`gsm7bitChars` is the 128-character GSM 7-bit default alphabet string from
the source, written here as the list of its Unicode code points (index i
holds the character encoded by septet i).  Position 27 is the escape
character U+001B. -/

def gsm7Codes : List Nat :=
  [64, 163, 36, 165, 232, 233, 249, 236, 242, 199, 10, 216, 248, 13, 197, 229,
   916, 95, 934, 915, 923, 937, 928, 936, 931, 920, 926, 27, 198, 230, 223, 201,
   32, 33, 34, 35, 164, 37, 38, 39, 40, 41, 42, 43, 44, 45, 46, 47,
   48, 49, 50, 51, 52, 53, 54, 55, 56, 57, 58, 59, 60, 61, 62, 63,
   161, 65, 66, 67, 68, 69, 70, 71, 72, 73, 74, 75, 76, 77, 78, 79,
   80, 81, 82, 83, 84, 85, 86, 87, 88, 89, 90, 196, 214, 209, 220, 167,
   191, 97, 98, 99, 100, 101, 102, 103, 104, 105, 106, 107, 108, 109, 110, 111,
   112, 113, 114, 115, 116, 117, 118, 119, 120, 121, 122, 228, 246, 241, 252, 224]

def gsm7bitRunes : List Char := gsm7Codes.map Char.ofNat

/-- The GSM 7-bit extension table `gsm7bitExtChars` of the source, as
(code point, extension code) pairs: | ^ € braces brackets tilde backslash. -/
def gsm7ExtPairs : List (Nat × Nat) :=
  [(124, 64), (94, 20), (8364, 101), (123, 40), (125, 41),
   (91, 60), (93, 62), (126, 61), (92, 47)]

/-- Lookup in `gsm7bitExtChars` (a Go map with these exact distinct keys). -/
def extCode (c : Char) : Option Nat :=
  (gsm7ExtPairs.find? (fun p => p.1 = c.toNat)).map (fun p => p.2)

/-- Lookup in `gsm7bitExtCharsReverse` (the inverted map built in `init`). -/
def extReverse (b : Nat) : Option Char :=
  (gsm7ExtPairs.find? (fun p => p.2 = b)).map (fun p => Char.ofNat p.1)

/-! ## Septet packing (`pack7Bit` / `unpack7Bit`) -/

/-- The inner `for bits >= 8` flush loop of `pack7Bit`, with an explicit
structural fuel: each pass needs `8 ≤ bits` and lowers `bits` by 8, so
`bits` passes always suffice (see `packFlush_step`).
`buffer & 0xFF` is `buffer % 256` and `buffer >>= 8` is `buffer / 256`. -/
def packFlushGo : Nat → Nat → Nat → List Nat × Nat × Nat
  | 0, buffer, bits => ([], buffer, bits)
  | fuel + 1, buffer, bits =>
    if 8 ≤ bits then
      let r := packFlushGo fuel (buffer / 256) (bits - 8)
      ((buffer % 256) :: r.1, r.2)
    else ([], buffer, bits)

def packFlush (buffer bits : Nat) : List Nat × Nat × Nat :=
  packFlushGo bits buffer bits

theorem packFlushGo_congr :
    ∀ fuel fuel' buffer bits, bits ≤ fuel → bits ≤ fuel' →
      packFlushGo fuel buffer bits = packFlushGo fuel' buffer bits := by
  intro fuel
  induction fuel with
  | zero =>
    intro fuel' buffer bits h _
    interval_cases bits
    cases fuel' <;> simp [packFlushGo]
  | succ n ih =>
    intro fuel' buffer bits h h'
    match fuel' with
    | 0 =>
      interval_cases bits
      simp [packFlushGo]
    | m + 1 =>
      simp only [packFlushGo]
      by_cases hb : 8 ≤ bits
      · rw [if_pos hb, if_pos hb, ih m (buffer / 256) (bits - 8) (by omega) (by omega)]
      · rw [if_neg hb, if_neg hb]

/-- The natural unfolding of the flush loop. -/
theorem packFlush_step (buffer bits : Nat) :
    packFlush buffer bits =
      if 8 ≤ bits then
        ((buffer % 256) :: (packFlush (buffer / 256) (bits - 8)).1,
          (packFlush (buffer / 256) (bits - 8)).2)
      else ([], buffer, bits) := by
  unfold packFlush
  match bits with
  | 0 => simp [packFlushGo]
  | n + 1 =>
    simp only [packFlushGo]
    by_cases hb : 8 ≤ n + 1
    · rw [if_pos hb, if_pos hb,
        packFlushGo_congr n (n + 1 - 8) (buffer / 256) (n + 1 - 8) (by omega) (by omega)]
    · rw [if_neg hb, if_neg hb]

/-- The main loop of `pack7Bit` over the septets, carrying (buffer, bits). -/
def packAux : List Nat → Nat → Nat → List Nat
  | [], buffer, bits => if 0 < bits then [buffer % 256] else []
  | s :: rest, buffer, bits =>
    let buffer := buffer ||| (s <<< bits)
    let bits := bits + 7
    let f := packFlush buffer bits
    f.1 ++ packAux rest f.2.1 f.2.2

/-- `pack7Bit` packs 7-bit septets into 8-bit bytes (src/pdu/encoding.go). -/
def pack7Bit (septets : List Nat) : List Nat :=
  if septets = [] then [] else packAux septets 0 0

/-- The inner `for bits >= 7 && len(septets) < length` flush loop of
`unpack7Bit`, with an explicit structural fuel: each pass needs `7 ≤ bits`
and lowers `bits` by 7, so `bits` passes always suffice (see
`unpackFlush_step`).  `buffer & 0x7F` is `buffer % 128`, `buffer >>= 7` is
`buffer / 128`; `rem` counts the septets still wanted. -/
def unpackFlushGo : Nat → Nat → Nat → Nat → List Nat × Nat × Nat × Nat
  | 0, buffer, bits, rem => ([], buffer, bits, rem)
  | fuel + 1, buffer, bits, rem =>
    if 7 ≤ bits ∧ 0 < rem then
      let r := unpackFlushGo fuel (buffer / 128) (bits - 7) (rem - 1)
      ((buffer % 128) :: r.1, r.2)
    else ([], buffer, bits, rem)

def unpackFlush (buffer bits rem : Nat) : List Nat × Nat × Nat × Nat :=
  unpackFlushGo bits buffer bits rem

theorem unpackFlushGo_congr :
    ∀ fuel fuel' buffer bits rem, bits ≤ fuel → bits ≤ fuel' →
      unpackFlushGo fuel buffer bits rem = unpackFlushGo fuel' buffer bits rem := by
  intro fuel
  induction fuel with
  | zero =>
    intro fuel' buffer bits rem h _
    interval_cases bits
    cases fuel' <;> simp [unpackFlushGo]
  | succ n ih =>
    intro fuel' buffer bits rem h h'
    match fuel' with
    | 0 =>
      interval_cases bits
      simp [unpackFlushGo]
    | m + 1 =>
      simp only [unpackFlushGo]
      by_cases hb : 7 ≤ bits ∧ 0 < rem
      · rw [if_pos hb, if_pos hb,
          ih m (buffer / 128) (bits - 7) (rem - 1) (by omega) (by omega)]
      · rw [if_neg hb, if_neg hb]

/-- The natural unfolding of the unpack flush loop. -/
theorem unpackFlush_step (buffer bits rem : Nat) :
    unpackFlush buffer bits rem =
      if 7 ≤ bits ∧ 0 < rem then
        ((buffer % 128) :: (unpackFlush (buffer / 128) (bits - 7) (rem - 1)).1,
          (unpackFlush (buffer / 128) (bits - 7) (rem - 1)).2)
      else ([], buffer, bits, rem) := by
  unfold unpackFlush
  match bits with
  | 0 =>
    simp [unpackFlushGo]
  | n + 1 =>
    simp only [unpackFlushGo]
    by_cases hb : 7 ≤ n + 1 ∧ 0 < rem
    · rw [if_pos hb, if_pos hb,
        unpackFlushGo_congr n (n + 1 - 7) (buffer / 128) (n + 1 - 7) (rem - 1)
          (by omega) (by omega)]
    · rw [if_neg hb, if_neg hb]

/-- The main loop of `unpack7Bit` over the data bytes; `rem` counts the
septets still to emit, and the loop breaks once it reaches zero. -/
def unpackAux : List Nat → Nat → Nat → Nat → List Nat
  | [], _, _, _ => []
  | b :: rest, buffer, bits, rem =>
    let buffer := buffer ||| (b <<< bits)
    let bits := bits + 8
    let f := unpackFlush buffer bits rem
    if f.2.2.2 = 0 then f.1 else f.1 ++ unpackAux rest f.2.1 f.2.2.1 f.2.2.2

/-- `unpack7Bit` unpacks bytes into `length` septets (src/pdu/encoding.go). -/
def unpack7Bit (data : List Nat) (length : Nat) : List Nat :=
  if data = [] ∨ length = 0 then [] else unpackAux data 0 0 length

/-! ## `Encode7Bit` / `Decode7Bit` -/

/-- The septet-building loop of `Encode7Bit`: extension characters become
`0x1B` plus their extension code, other characters become their index in
`gsm7bitRunes`; unmappable characters make the whole encoding fail. -/
def encode7Septets : List Char → Option (List Nat)
  | [] => some []
  | c :: rest =>
    match extCode c with
    | some e => (encode7Septets rest).map (fun l => 27 :: e :: l)
    | none =>
      match gsm7bitRunes.findIdx? (fun x => x = c) with
      | some i => (encode7Septets rest).map (fun l => i :: l)
      | none => none

/-- `Encode7Bit` (src/pdu/encoding.go): build septets, then pack. -/
def Encode7Bit (text : List Char) : Option (List Nat) :=
  (encode7Septets text).map pack7Bit

/-- The escape-state loop of `Decode7Bit` over the unpacked septets. -/
def decode7Septets (escape : Bool) : List Nat → List Char
  | [] => []
  | septet :: rest =>
    if escape then
      match extReverse septet with
      | some r => r :: decode7Septets false rest
      | none => decode7Septets false rest
    else if septet = 27 then decode7Septets true rest
    else if septet < gsm7bitRunes.length then
      gsm7bitRunes.getD septet (Char.ofNat 0) :: decode7Septets false rest
    else decode7Septets false rest

/-- `Decode7Bit` (src/pdu/encoding.go): unpack `length` septets, decode. -/
def Decode7Bit (data : List Nat) (length : Nat) : List Char :=
  decode7Septets false (unpack7Bit data length)

/-! ## UCS-2 (`EncodeUCS2` / `DecodeUCS2`) -/

def isHighSurrogate (u : Nat) : Bool := 0xD800 ≤ u ∧ u < 0xDC00

def isLowSurrogate (u : Nat) : Bool := 0xDC00 ≤ u ∧ u < 0xE000

def isSurrogate (u : Nat) : Bool := 0xD800 ≤ u ∧ u < 0xE000

/-- Go's `utf16.Decode`: surrogate pairs combine, lone surrogates become
U+FFFD, everything else passes through. -/
def utf16Decode : List Nat → List Nat
  | [] => []
  | [u] => if isSurrogate u then [0xFFFD] else [u]
  | u :: v :: rest2 =>
    if isHighSurrogate u ∧ isLowSurrogate v then
      (0x10000 + (u - 0xD800) * 1024 + (v - 0xDC00)) :: utf16Decode rest2
    else if isSurrogate u then 0xFFFD :: utf16Decode (v :: rest2)
    else u :: utf16Decode (v :: rest2)

/-- Go's `utf16.Encode` on a list of code points. -/
def utf16Encode : List Nat → List Nat
  | [] => []
  | r :: rest =>
    if 0x10000 ≤ r ∧ r ≤ 0x10FFFF then
      (0xD800 + (r - 0x10000) / 1024) :: (0xDC00 + (r - 0x10000) % 1024) ::
        utf16Encode rest
    else if isSurrogate r then 0xFFFD :: utf16Encode rest
    else r :: utf16Encode rest

/-- Pair up big-endian bytes into 16-bit code units
(`uint16(data[i])<<8 | uint16(data[i+1])`). -/
def pairBytes : List Nat → List Nat
  | a :: b :: rest => ((a <<< 8) ||| b) :: pairBytes rest
  | _ => []

/-- `EncodeUCS2` (src/pdu/encoding.go): UTF-16 code units, big endian. -/
def EncodeUCS2 (text : List Char) : List Nat :=
  (utf16Encode (text.map Char.toNat)).flatMap (fun u => [u / 256, u % 256])

/-- `DecodeUCS2` (src/pdu/encoding.go): odd-length data yields the empty
string; otherwise decode the big-endian UTF-16 code units. -/
def DecodeUCS2 (data : List Nat) : List Char :=
  if data.length % 2 ≠ 0 then []
  else (utf16Decode (pairBytes data)).map Char.ofNat

/-! ## Phone numbers (`SwapNibbles`, `EncodePhoneNumber`, `DecodePhoneNumber`) -/

/-- `SwapNibbles` (src/pdu/encoding.go): swap each pair of characters; a
trailing unpaired character is left in place. -/
def SwapNibbles : List Char → List Char
  | a :: b :: rest => b :: a :: SwapNibbles rest
  | l => l

/-- Modelled from the spec: the `AddressType` constants of the pdu package
(declared in a file not present under src/) — the address-type octet is
0x91 for international, 0x81 for unknown, 0xD0 for alphanumeric. -/
def AddressTypeUnknown : Nat := 0x81

def AddressTypeInternational : Nat := 0x91

def AddressTypeAlphanumeric : Nat := 0xD0

def isAsciiDigit (c : Char) : Bool := '0' ≤ c ∧ c ≤ '9'

/-- The scanning loop of `EncodePhoneNumber`: a `+` anywhere sets the
international flag, digits are kept in order, other characters dropped. -/
def phoneScan : List Char → Bool × List Char
  | [] => (false, [])
  | c :: rest =>
    let r := phoneScan rest
    if c = '+' then (true, r.2)
    else if isAsciiDigit c then (r.1, c :: r.2)
    else r

/-- `EncodePhoneNumber` (src/pdu/encoding.go): returns the address type and
the nibble-swapped digit string (odd digit counts padded with `F`). -/
def EncodePhoneNumber (number : List Char) : Nat × List Char :=
  let s := phoneScan number
  let result := if s.2.length % 2 ≠ 0 then s.2 ++ ['F'] else s.2
  let addrType := if s.1 then AddressTypeInternational else AddressTypeUnknown
  (addrType, SwapNibbles result)

/-- `strings.TrimSuffix(s, "F")`: drop one trailing `F` if present. -/
def trimSuffixF (s : List Char) : List Char :=
  if ['F'].isSuffixOf s then s.dropLast else s

/-- Value of a hexadecimal digit character, if it is one (code points
48-57 are the digits, 65-70 uppercase and 97-102 lowercase letters). -/
def hexDigitVal (c : Char) : Option Nat :=
  let n := c.toNat
  if 48 ≤ n ∧ n ≤ 57 then some (n - 48)
  else if 65 ≤ n ∧ n ≤ 70 then some (n - 55)
  else if 97 ≤ n ∧ n ≤ 102 then some (n - 87)
  else none

/-- `HexToBytes` (src/pdu/encoding.go): `hex.DecodeString` after an
even-length check; any non-hex character is an error. -/
def HexToBytes : List Char → Option (List Nat)
  | [] => some []
  | [_] => none
  | a :: b :: rest =>
    match hexDigitVal a, hexDigitVal b with
    | some x, some y => (HexToBytes rest).map (fun l => (x * 16 + y) :: l)
    | _, _ => none

def hexDigitChar (n : Nat) : Char :=
  Char.ofNat (if n < 10 then 48 + n else 55 + n)

/-- `fmt.Sprintf("%02X", n)` for the byte-sized values used by the source. -/
def toHex2 (n : Nat) : List Char := [hexDigitChar (n / 16 % 16), hexDigitChar (n % 16)]

/-- `BytesToHex` (src/pdu/encoding.go): uppercase hex, two digits a byte. -/
def BytesToHex (bytes : List Nat) : List Char := bytes.flatMap toHex2

/-- `DecodePhoneNumber` (src/pdu/encoding.go): alphanumeric addresses are
7-bit unpacked; otherwise swap nibbles back, strip one trailing `F`, and
prepend `+` for international numbers. -/
def DecodePhoneNumber (data : List Char) (addrType : Nat) : List Char :=
  if addrType = AddressTypeAlphanumeric then
    match HexToBytes data with
    | none => data
    | some bytes => Decode7Bit bytes (bytes.length * 8 / 7)
  else
    let swapped := trimSuffixF (SwapNibbles data)
    if addrType = AddressTypeInternational then '+' :: swapped else swapped

/-! ## PDU message model

Modelled from the spec: the pdu package's type declarations (`Message`,
`MessageType`, `Encoding`) live in a file that is not under src/; the
variants and fields below follow spec §3 and the uses in `Decode`,
`decodeDeliver`, `decodeSubmit` and `parseUDH`. -/

inductive MessageType
  | smsDeliver
  | smsSubmit
  | smsStatusReport
  deriving DecidableEq, Repr

inductive Encoding
  | sevenBit
  | eightBit
  | ucs2
  deriving DecidableEq, Repr

/-- The components handed to Go's `time.Date` by `decodeTimestamp`
(recorded unnormalised; `tzMinutes` is the fixed-zone offset in minutes). -/
structure SMSTime where
  year : Nat
  month : Nat
  day : Nat
  hour : Nat
  minute : Nat
  second : Nat
  tzMinutes : Int
  deriving DecidableEq, Repr

structure Message where
  type : MessageType := MessageType.smsDeliver
  smsc : List Char := []
  phoneNumber : List Char := []
  encoding : Encoding := Encoding.sevenBit
  flash : Bool := false
  timestamp : Option SMSTime := none
  validityPeriod : Nat := 0
  text : List Char := []
  udh : List Nat := []
  reference : Nat := 0
  parts : Nat := 0
  part : Nat := 0
  deriving DecidableEq, Repr

/-! ## PDU decoding (src/unnamed/part_009, package pdu) -/

/-- `parseHexByte`: `strconv.ParseUint(hex, 16, 8)` with the error ignored,
so empty, non-hex or out-of-range input yields 0. -/
def parseHexByte (hex : List Char) : Nat :=
  let v := hex.foldl
    (fun acc c =>
      match acc, hexDigitVal c with
      | some a, some d => some (a * 16 + d)
      | _, _ => none)
    (some 0)
  if hex = [] then 0
  else match v with
    | some n => if n < 256 then n else 0
    | none => 0

/-- `strconv.Atoi` with the error ignored (as in `decodeTimestamp`). -/
def atoiOrZero (s : List Char) : Nat :=
  let v := s.foldl
    (fun acc c =>
      match acc, c.isDigit with
      | some a, true => some (a * 10 + (c.toNat - '0'.toNat))
      | _, _ => none)
    (some 0)
  if s = [] then 0
  else match v with
    | some n => n
    | none => 0

/-- Go string slicing `s[a:b]` (all uses in the decoders are in bounds). -/
def substr (s : List Char) (a b : Nat) : List Char := (s.drop a).take (b - a)

def isSpaceChar (c : Char) : Bool :=
  c.toNat = 32 ∨ (9 ≤ c.toNat ∧ c.toNat ≤ 13)

/-- `strings.TrimSpace` (the inputs here are ASCII). -/
def trimSpace (s : List Char) : List Char :=
  ((s.dropWhile isSpaceChar).reverse.dropWhile isSpaceChar).reverse

/-- `strings.ToUpper` on the ASCII hex strings handled here. -/
def asciiToUpper (c : Char) : Char :=
  if 'a' ≤ c ∧ c ≤ 'z' then Char.ofNat (c.toNat - 32) else c

/-- `shiftRight`'s loop: each byte keeps its high bits shifted down and
receives the previous byte's low bits as carry. -/
def shiftRightAux (bits : Nat) (carry : Nat) : List Nat → List Nat
  | [] => []
  | d :: rest =>
    ((d >>> bits) ||| carry) ::
      shiftRightAux bits ((d &&& ((1 <<< bits) - 1)) <<< (8 - bits)) rest

/-- `shiftRight` (src/unnamed/part_009): shift a byte array right. -/
def shiftRight (data : List Nat) (bits : Nat) : List Nat :=
  if bits = 0 ∨ data = [] then data else shiftRightAux bits 0 data

/-- Number of bytes of the UTF-8 encoding of a character
(`len` on a Go string counts bytes). -/
def utf8Size (c : Char) : Nat :=
  if c.toNat < 0x80 then 1
  else if c.toNat < 0x800 then 2
  else if c.toNat < 0x10000 then 3
  else 4

def utf8Length (s : List Char) : Nat := (s.map utf8Size).sum

/-- The first UTF-8 byte of a Go string (`s[0]`), if the string is
non-empty. -/
def utf8FirstByte (s : List Char) : Option Nat :=
  match s with
  | [] => none
  | c :: _ =>
    some (if c.toNat < 0x80 then c.toNat
      else if c.toNat < 0x800 then 0xC0 + c.toNat / 64
      else if c.toNat < 0x10000 then 0xE0 + c.toNat / 4096
      else 0xF0 + c.toNat / 262144)

/-- The per-candidate score of `decodeUserData`: one point per ASCII
letter rune. -/
def letterScore (s : List Char) : Int :=
  ((s.filter (fun r => ('a' ≤ r ∧ r ≤ 'z') ∨ ('A' ≤ r ∧ r ≤ 'Z'))).length : Int)

/-- The offset-guessing loop of `decodeUserData`: try skip offsets
`udhSeptets - 5 .. udhSeptets + 5` into the decoded full text, score each
candidate (letters, closeness to the expected length, a +100 bonus when the
candidate starts with the byte `M`), and keep the best strictly-improving
candidate, starting from score -1 and the empty string. -/
def bestCandidate (fullText : List Char) (udhSeptets : Nat) (textSeptets : Int) :
    Int × List Char :=
  (List.range 11).foldl
    (fun best k =>
      let offsetDelta : Int := (k : Int) - 5
      let tryOffset : Int := (udhSeptets : Int) + offsetDelta
      if tryOffset < 0 ∨ (utf8Length fullText : Int) < tryOffset then best
      else if (fullText.length : Int) < tryOffset then best
      else
        let tryText := fullText.drop tryOffset.toNat
        let score := letterScore tryText
        let lengthDiff : Int := (((tryText.length : Int) - textSeptets).natAbs : Int)
        let score := if lengthDiff ≤ 2 then score + (10 - lengthDiff) else score
        let score := if utf8FirstByte tryText = some 77 then score + 100 else score
        if best.1 < score then (score, tryText) else best)
    (-1, [])

/-- `decodeUserData` (src/unnamed/part_009): split off the UDH, then decode
the text.  For GSM 7-bit with a UDH the source scores candidate offsets
(`bestCandidate`) and falls back to the right-shift method only when the
shift method scores strictly higher. -/
def decodeUserData (userData : List Char) (udl : Nat) (encoding : Encoding)
    (hasUDH : Bool) : Option (List Char × List Nat) :=
  match HexToBytes userData with
  | none => none
  | some dataBytes =>
    let udhLen := if hasUDH ∧ dataBytes ≠ [] then dataBytes.headD 0 + 1 else 0
    if hasUDH ∧ dataBytes ≠ [] ∧ dataBytes.length < udhLen then none
    else
      let udh := if hasUDH ∧ dataBytes ≠ [] then dataBytes.take udhLen else []
      let textData := if hasUDH ∧ dataBytes ≠ [] then dataBytes.drop udhLen
        else dataBytes
      match encoding with
      | Encoding.sevenBit =>
        if hasUDH ∧ 0 < udhLen then
          let udhBits := udhLen * 8
          let padding0 := 7 - udhBits % 7
          let padding := if padding0 = 7 then 0 else padding0
          let udhSeptets := (udhBits + padding) / 7
          let textSeptets : Int := (udl : Int) - (udhSeptets : Int)
          let fullText := Decode7Bit dataBytes udl
          let best := bestCandidate fullText udhSeptets textSeptets
          let textLen : Int := (udl : Int) - (udhSeptets : Int)
          let shiftedData := if 0 < padding ∧ textData ≠ [] then
              shiftRight textData padding else textData
          let shiftText := Decode7Bit shiftedData textLen.toNat
          let shiftScore := letterScore shiftText
          some (if best.1 < shiftScore then shiftText else best.2, udh)
        else some (Decode7Bit textData udl, udh)
      | Encoding.eightBit => some (textData.map Char.ofNat, udh)
      | Encoding.ucs2 => some (DecodeUCS2 textData, udh)

/-- `decodeTimestamp` (src/unnamed/part_009): nibble-swapped BCD
`YYMMDDHHMMSSTZ`; the timezone's pre-swap high bit is the sign, the value
counts quarter hours. -/
def decodeTimestamp (ts : List Char) : Option SMSTime :=
  if ts.length ≠ 14 then none
  else
    let year := SwapNibbles (substr ts 0 2)
    let month := SwapNibbles (substr ts 2 4)
    let day := SwapNibbles (substr ts 4 6)
    let hour := SwapNibbles (substr ts 6 8)
    let minute := SwapNibbles (substr ts 8 10)
    let second := SwapNibbles (substr ts 10 12)
    let tz := substr ts 12 14
    let tzSwapped := SwapNibbles tz
    let tzSign : Int := if '8' ≤ tz.headD '0' then -1 else 1
    let tzValue := if tzSign = -1 then
        SwapNibbles (toHex2 (parseHexByte tz &&& 0x7F))
      else tzSwapped
    let tzQuarters := atoiOrZero tzValue
    let tzOffset : Int := tzSign * (tzQuarters : Int) * 15
    let y0 := atoiOrZero year
    let y := if y0 < 70 then y0 + 2000 else y0 + 1900
    some { year := y, month := atoiOrZero month, day := atoiOrZero day,
           hour := atoiOrZero hour, minute := atoiOrZero minute,
           second := atoiOrZero second, tzMinutes := tzOffset }

/-- `parseUDH`'s element loop over the bytes after the UDHL, carrying
(reference, parts, part). -/
def parseUDHLoop : List Nat → Nat × Nat × Nat → Nat × Nat × Nat
  | iei :: iedl :: rest, acc =>
    if rest.length < iedl then acc
    else
      let acc :=
        if iei = 0 ∧ iedl = 3 then (rest.getD 0 0, rest.getD 1 0, rest.getD 2 0)
        else if iei = 8 ∧ iedl = 4 then (rest.getD 1 0, rest.getD 2 0, rest.getD 3 0)
        else acc
      parseUDHLoop (rest.drop iedl) acc
  | _, acc => acc
termination_by l => l.length
decreasing_by simp; omega

/-- `parseUDH` (src/unnamed/part_009): extract concatenation info. -/
def parseUDH (udh : List Nat) (msg : Message) : Message :=
  let r := parseUDHLoop (udh.drop 1) (msg.reference, msg.parts, msg.part)
  { msg with reference := r.1, parts := r.2.1, part := r.2.2 }

/-- Encoding selected from a DCS byte (shared logic of the two decoders). -/
def dcsEncoding (dcs : Nat) : Encoding :=
  if dcs &&& 0x0C = 0x08 then Encoding.ucs2
  else if dcs &&& 0x04 = 0x04 then Encoding.eightBit
  else Encoding.sevenBit

/-- `decodeDeliver` (src/unnamed/part_009). -/
def decodeDeliver (pdu : List Char) (hasUDH : Bool) (msg : Message) :
    Option Message :=
  let addrLen := parseHexByte (substr pdu 0 2)
  let addrType := parseHexByte (substr pdu 2 4)
  let addrHexLen := (addrLen + 1) / 2
  if pdu.length < 4 + addrHexLen * 2 then none
  else
    let addrHex := substr pdu 4 (4 + addrHexLen * 2)
    let offset := 4 + addrHexLen * 2 + 2
    let dcs := parseHexByte (substr pdu offset (offset + 2))
    let offset := offset + 2
    let msg := { msg with phoneNumber := DecodePhoneNumber addrHex addrType,
                          encoding := dcsEncoding dcs,
                          flash := dcs &&& 0x10 ≠ 0 }
    if pdu.length < offset + 14 then none
    else
      match decodeTimestamp (substr pdu offset (offset + 14)) with
      | none => none
      | some ts =>
        let msg := { msg with timestamp := some ts }
        let offset := offset + 14
        let udl := parseHexByte (substr pdu offset (offset + 2))
        let offset := offset + 2
        if pdu.length < offset then none
        else
          match decodeUserData (pdu.drop offset) udl msg.encoding hasUDH with
          | none => none
          | some (text, udh) =>
            let msg := { msg with text := text, udh := udh }
            some (if udh ≠ [] then parseUDH udh msg else msg)

/-- `decodeSubmit` (src/unnamed/part_009). -/
def decodeSubmit (pdu : List Char) (hasUDH hasVP : Bool) (msg : Message) :
    Option Message :=
  let addrLen := parseHexByte (substr pdu 2 4)
  let addrType := parseHexByte (substr pdu 4 6)
  let addrHexLen := (addrLen + 1) / 2
  if pdu.length < 6 + addrHexLen * 2 then none
  else
    let addrHex := substr pdu 6 (6 + addrHexLen * 2)
    let offset := 6 + addrHexLen * 2 + 2
    let dcs := parseHexByte (substr pdu offset (offset + 2))
    let offset := offset + 2
    let msg := { msg with phoneNumber := DecodePhoneNumber addrHex addrType,
                          encoding := dcsEncoding dcs,
                          flash := dcs &&& 0x10 ≠ 0 }
    let msg := if hasVP then
        { msg with validityPeriod := parseHexByte (substr pdu offset (offset + 2)) }
      else msg
    let offset := if hasVP then offset + 2 else offset
    let udl := parseHexByte (substr pdu offset (offset + 2))
    let offset := offset + 2
    if pdu.length < offset then none
    else
      match decodeUserData (pdu.drop offset) udl msg.encoding hasUDH with
      | none => none
      | some (text, udh) =>
        let msg := { msg with text := text, udh := udh }
        some (if udh ≠ [] then parseUDH udh msg else msg)

/-- `Decode` (src/unnamed/part_009): parse a PDU hex string into a
`Message` (SMS-DELIVER and SMS-SUBMIT only). -/
def Decode (pduStr : List Char) : Option Message :=
  let p := (trimSpace pduStr).map asciiToUpper
  let smscLen := parseHexByte (substr p 0 2)
  if smscLen = 0 ∧ substr p 0 2 ≠ ['0', '0'] then none
  else
    let offset := 2 + smscLen * 2
    if p.length < offset then none
    else
      let smsc := if 0 < smscLen then
          DecodePhoneNumber (substr p 4 offset) (parseHexByte (substr p 2 4))
        else []
      let pduType := parseHexByte (substr p offset (offset + 2))
      let offset := offset + 2
      let msgType := if pduType &&& 0x03 = 1 then MessageType.smsSubmit
        else if pduType &&& 0x03 = 2 then MessageType.smsStatusReport
        else MessageType.smsDeliver
      let hasUDH := pduType &&& 0x40 ≠ 0
      let hasVP := pduType &&& 0x10 ≠ 0
      let msg : Message := { type := msgType, smsc := smsc }
      match msgType with
      | MessageType.smsDeliver => decodeDeliver (p.drop offset) hasUDH msg
      | MessageType.smsSubmit => decodeSubmit (p.drop offset) hasUDH hasVP msg
      | MessageType.smsStatusReport => none

end Pdu

namespace At

/-! ## SMS PDU building (src/unnamed/part_002, package at) -/

/-- `encodeBCD` (src/unnamed/part_002): pad an odd-length number with `F`
and swap each pair of digits. -/
def encodeBCDSwap : List Char → List Char
  | a :: b :: rest => b :: a :: encodeBCDSwap rest
  | l => l

def encodeBCD (phoneNumber : List Char) : List Char :=
  encodeBCDSwap (if phoneNumber.length % 2 ≠ 0 then phoneNumber ++ ['F']
    else phoneNumber)

/-- `buildPDU` (src/unnamed/part_002): build the PDU hex string for an
SMS-SUBMIT and return it with the TPDU length.  `data` is the user-data
string prepared by the caller (raw text for 7-bit, `encodeUCS2` hex for
UCS-2); the source decides UCS-2 by testing whether the first byte of
`data` is a letter `A`-`F`. -/
def buildPDU (phoneNumber data : List Char) (reference total sequence : Nat) :
    List Char × Nat :=
  let header := ['0', '0'] ++ (if 0 < total then ['5', '1'] else ['1', '1']) ++
    ['0', '0']
  let stripped := if phoneNumber.headD ' ' = '+' then phoneNumber.tail
    else phoneNumber
  let phoneLen := stripped.length
  let addr := Pdu.toHex2 phoneLen ++
    (if phoneNumber.headD ' ' = '+' then ['9', '1'] else ['8', '1']) ++
    encodeBCD stripped
  let isUCS2 : Bool := data ≠ [] ∧ 'A' ≤ data.headD ' ' ∧ data.headD ' ' ≤ 'F'
  let dcs := if isUCS2 then ['0', '8'] else ['0', '0']
  let ud :=
    if 0 < total then
      let udh := ['0', '5', '0', '0', '0', '3'] ++ Pdu.toHex2 reference ++
        Pdu.toHex2 total ++ Pdu.toHex2 sequence
      let udhLen := udh.length / 2
      if isUCS2 then Pdu.toHex2 (udhLen + data.length / 2) ++ udh ++ data
      else Pdu.toHex2 (data.length + udhLen) ++ udh ++ data
    else
      if isUCS2 then Pdu.toHex2 (data.length / 2) ++ data
      else Pdu.toHex2 data.length ++ data
  let pdu := header ++ addr ++ ['0', '0'] ++ dcs ++ ud
  (pdu, (pdu.length - 2) / 2)

/-! ## Command terminators (src/unnamed/part_007) -/

/-- `Terminators`: CR, LF, CRLF, Ctrl-Z, ESC. -/
def Terminators : List (List Char) :=
  [[Char.ofNat 13], [Char.ofNat 10], [Char.ofNat 13, Char.ofNat 10],
   [Char.ofNat 26], [Char.ofNat 27]]

/-- `hasTerminator` (src/unnamed/part_007): does the command already end
with any recognised terminator? -/
def hasTerminator (cmd : List Char) : Bool :=
  Terminators.any (fun t => t.isSuffixOf cmd)

/-- The command-text transformation performed by `Device.SendCommand`
(src/at/device.go lines 118-121) before writing to the port: append CRLF
unless a terminator is already present. -/
def sendCommandText (cmd : List Char) : List Char :=
  if hasTerminator cmd then cmd else cmd ++ [Char.ofNat 13, Char.ofNat 10]

/-! ## URC classification (src/at/notification.go) -/

/-- The URC prefixes of `DefaultNotificationSet`, in the order
`GetAllNotifications` produces them (reflection over the struct fields of
`NotificationSet`, in declaration order; every default value is
non-empty). -/
def allNotifications : List (List Char) :=
  ["RING".toList, "NO CARRIER".toList, "BUSY".toList, "NO ANSWER".toList,
   "NO DIALTONE".toList, "+CRING".toList, "+CLIP".toList, "+CLCC".toList,
   "+CCWA".toList, "+COLP".toList, "+CSSI".toList, "+CSSU".toList,
   "+CMTI".toList, "+CMT".toList, "+CDS".toList, "+CBM".toList,
   "+CNMA".toList, "+CREG".toList, "+CGREG".toList, "+CEREG".toList,
   "+C5GREG".toList, "+CIREG".toList, "+COPS".toList, "+CSQ".toList,
   "+CTZV".toList, "+CTZU".toList, "+CGEV".toList, "+5GMM".toList,
   "+EMM".toList, "+GMM".toList, "+CIEV".toList, "+CDIS".toList,
   "+CHLD".toList, "+CCFC".toList, "+CMGS".toList, "+CMGW".toList,
   "+RDY".toList, "+BOOT".toList, "+CIPOPEN".toList, "+CIPCLOSE".toList,
   "+CIPRXGOT".toList, "+CIPSEND".toList, "+CPIN".toList,
   "+CMS ERROR".toList, "+CME ERROR".toList, "+CUSD".toList]

/-- The first-match loop of `IsNotification`: the first non-empty item
that is a prefix of the line (or the empty string if none matches). -/
def firstPrefixMatch : List (List Char) → List Char → List Char
  | [], _ => []
  | item :: rest, line =>
    if item ≠ [] ∧ item.isPrefixOf line then item else firstPrefixMatch rest line

/-- `NotificationSet.IsNotification` (src/at/notification.go lines
169-188): a line is a URC iff some URC prefix matches, except that with a
command in flight `+CME ERROR`/`+CMS ERROR` and prefixes echoing the
command itself are suppressed. -/
def isNotification (line cmd : List Char) : Bool :=
  let urc := firstPrefixMatch allNotifications line
  if cmd ≠ [] ∧ urc ≠ [] ∧ urc.headD ' ' = '+' then
    if urc = "+CME ERROR".toList ∨ urc = "+CMS ERROR".toList then false
    else if ("AT".toList ++ urc).isPrefixOf cmd then false
    else urc ≠ []
  else urc ≠ []

/-! ## Final-response classification (src/at/response.go) -/

/-- The final-response tokens of `DefaultResponseSet`, in the order
`GetAllResponses` produces them (string struct fields in declaration
order, then the empty `CustomFinal` list). -/
def allResponses : List (List Char) :=
  ["OK".toList, "ERROR".toList, "NO CARRIER".toList, "NO ANSWER".toList,
   "NO DIALTONE".toList, "BUSY".toList, "CONNECT".toList,
   "+CME ERROR".toList, "+CMS ERROR".toList, "+CIS ERROR".toList,
   ">".toList]

/-- `ResponseSet.IsFinal` (src/at/response.go lines 81-88): a line is
final iff it starts with some non-empty final-response token. -/
def isFinal (line : List Char) : Bool :=
  allResponses.any (fun resp => resp ≠ [] ∧ resp.isPrefixOf line)

end At

/-! ## Generic list helpers -/

theorem isPrefixOf_append_take_ne {p a : List Char} {s : List Char}
    (h : p.take a.length ≠ a.take p.length) : p.isPrefixOf (a ++ s) = false := by
  induction p generalizing a with
  | nil => simp at h
  | cons c p ih =>
    cases a with
    | nil => simp at h
    | cons d a =>
      rw [List.cons_append, List.isPrefixOf_cons₂]
      by_cases hcd : c = d
      · subst hcd
        simp only [List.length_cons, List.take_succ_cons, ne_eq, List.cons.injEq,
          true_and] at h
        simp [ih h]
      · simp [hcd]

theorem isPrefixOf_append_left {p a : List Char} (s : List Char)
    (h : p.isPrefixOf a = true) : p.isPrefixOf (a ++ s) = true := by
  induction p generalizing a with
  | nil => simp
  | cons c p ih =>
    cases a with
    | nil => simp at h
    | cons d a =>
      rw [List.isPrefixOf_cons₂] at h
      rw [List.cons_append, List.isPrefixOf_cons₂]
      simp only [Bool.and_eq_true] at h ⊢
      exact ⟨h.1, ih h.2⟩

/-! ## C1: the TPDU round-trip law against `buildPDU` / `Decode` -/

/-- C1 (code bug): serialising an SMS-SUBMIT for destination
`+8613800138000` with GSM-7 payload `hello` via `buildPDU` yields a PDU
string whose user data is the raw unpacked text, and whose first octet
declares a validity period that is never emitted; `Decode` on this PDU
fails (it is not a hex string), so `parse(serialise(t)) == t` does not
hold.  The first conjunct records the octets actually serialised. -/
theorem buildPDU_decode_roundtrip_fails :
    (At.buildPDU ("+8613800138000".toList) ("hello".toList) 0 0 0).1 =
      "0011000D91683108108300F0000005hello".toList ∧
    Pdu.Decode (At.buildPDU ("+8613800138000".toList) ("hello".toList) 0 0 0).1 =
      none := by
  constructor
  · rfl
  · rfl

/-! ## C2: UDH bit-alignment rule versus the decoder's heuristic -/

/-- Modelled from the spec (§4.2, UDL semantics edge case): the
deterministic bit-alignment decode of a GSM-7 user-data field carrying a
UDH — the UDH occupies `ceil((UDHL+1)*8 / 7)` septets, and the text is the
remaining septets of the UDL-long septet stream, which start
`(7 - ((UDHL+1)*8 mod 7)) mod 7` bits into the byte after the UDH. -/
def specAligned7BitText (dataBytes : List Nat) (udl : Nat) : List Char :=
  let udhSeptets := ((dataBytes.headD 0 + 1) * 8 + 6) / 7
  Pdu.decode7Septets false ((Pdu.unpack7Bit dataBytes udl).drop udhSeptets)

/-- C2 (code bug): the user-data field `05 00 03 42 02 01 C2 CD 66 B3 09`
with UDL 12 is the exact-inverse encoding of the text `aMMMM` behind the
concatenation UDH `05 00 03 42 02 01` (the last conjuncts exhibit the
encoding), and the deterministic bit-alignment rule recovers `aMMMM`; but
`decodeUserData`'s offset-scoring heuristic (with its +100 bonus for a
candidate starting with `M`) returns `MMMM` instead. -/
theorem decodeUserData_heuristic_vs_aligned_rule :
    Pdu.decodeUserData ("050003420201C2CD66B309".toList) 12
        Pdu.Encoding.sevenBit true =
      some ("MMMM".toList, [5, 0, 3, 66, 2, 1]) ∧
    specAligned7BitText [5, 0, 3, 66, 2, 1, 194, 205, 102, 179, 9] 12 =
      "aMMMM".toList ∧
    ("MMMM".toList : List Char) ≠ "aMMMM".toList ∧
    Pdu.encode7Septets ("aMMMM".toList) = some [97, 77, 77, 77, 77] ∧
    Pdu.pack7Bit ([5, 0, 12, 16, 36, 32, 0] ++ [97, 77, 77, 77, 77]) =
      [5, 0, 3, 66, 2, 1, 194, 205, 102, 179, 9] ∧
    Pdu.unpack7Bit [5, 0, 3, 66, 2, 1, 194, 205, 102, 179, 9] 12 =
      [5, 0, 12, 16, 36, 32, 0] ++ [97, 77, 77, 77, 77] := by
  refine ⟨by rfl, by rfl, by decide, by rfl, by rfl, by rfl⟩

/-! ## C5 counterexample: 7-bit round trip at character count -/

/-- C5 counterexample: `€` is GSM-7 encodable (extension table) but takes
two septets, so decoding `Encode7Bit("€")` with septet count
`length("€") = 1` yields the empty string, not `€`. -/
theorem encode7_decode7_charcount_fails :
    (Pdu.Encode7Bit ['€']).map
        (fun d => Pdu.Decode7Bit d ((['€'] : List Char).length)) ≠
      some ['€'] := by
  decide

/-! ## C6 counterexample: the strict upper bound fails at 7 septets -/

/-- C6 counterexample: seven septets pack into exactly 7 bytes
(`ceil(49/8) = 7`), and `7*8 = 56 < (7+1)*7 = 56` is false, refuting the
claimed bound `packed-byte-count*8 < (L+1)*7`. -/
theorem pack7Bit_upper_bound_violation :
    (Pdu.pack7Bit [0, 0, 0, 0, 0, 0, 0]).length = 7 ∧
    ¬ ((Pdu.pack7Bit [0, 0, 0, 0, 0, 0, 0]).length * 8 <
        ([0, 0, 0, 0, 0, 0, 0] : List Nat).length * 7 + 7) := by
  decide

/-! ## C8: terminator handling in `SendCommand` -/

/-- C8: `SendCommand` appends CR+LF exactly when the command does not
already end in one of the recognised terminators CR, LF, CRLF, 0x1A, 0x1B;
a command ending in a terminator is written unchanged. -/
theorem sendCommandText_appends_crlf_iff (cmd : List Char) :
    At.sendCommandText cmd =
      if ∃ t ∈ At.Terminators, t <:+ cmd then cmd
      else cmd ++ [Char.ofNat 13, Char.ofNat 10] := by
  have h : At.hasTerminator cmd = true ↔ ∃ t ∈ At.Terminators, t <:+ cmd := by
    simp [At.hasTerminator, List.any_eq_true]
  by_cases hc : ∃ t ∈ At.Terminators, t <:+ cmd
  · rw [if_pos hc]
    unfold At.sendCommandText
    rw [if_pos (h.mpr hc)]
  · rw [if_neg hc]
    unfold At.sendCommandText
    rw [if_neg]
    intro hb
    exact hc (h.mp hb)

/-! ## C10: odd-length UCS-2 input -/

/-- C10: `DecodeUCS2` returns the empty string on every odd-length byte
sequence — indistinguishable from decoding an empty message — and (being a
total function) it never fails on even-length input. -/
theorem decodeUCS2_odd_length_empty (data : List Nat)
    (h : data.length % 2 = 1) :
    Pdu.DecodeUCS2 data = Pdu.DecodeUCS2 [] ∧ Pdu.DecodeUCS2 data = [] := by
  have h2 : Pdu.DecodeUCS2 data = [] := by
    unfold Pdu.DecodeUCS2
    rw [if_pos (by omega)]
  exact ⟨by rw [h2]; rfl, h2⟩

/-! ## Bit-stream semantics of septet packing

`pack7Bit`/`unpack7Bit` shuffle an LSB-first bit stream between 7-bit and
8-bit framing.  `lowBits w n` is the list of the `w` low bits of `n`,
least significant first; `bitsVal` is its inverse; `toBytes` regroups a
bit stream into bytes (zero-padding the last one) and `chunk7` reads
complete septets off a bit stream. -/

namespace Bits

def lowBits : Nat → Nat → List Bool
  | 0, _ => []
  | w + 1, n => (n % 2 = 1) :: lowBits w (n / 2)

def bitsVal : List Bool → Nat
  | [] => 0
  | b :: rest => (if b then 1 else 0) + 2 * bitsVal rest

def toBytes : List Bool → List Nat
  | [] => []
  | b0 :: b1 :: b2 :: b3 :: b4 :: b5 :: b6 :: b7 :: rest =>
    bitsVal [b0, b1, b2, b3, b4, b5, b6, b7] :: toBytes rest
  | l => [bitsVal l]

def chunk7 : List Bool → List Nat
  | b0 :: b1 :: b2 :: b3 :: b4 :: b5 :: b6 :: rest =>
    bitsVal [b0, b1, b2, b3, b4, b5, b6] :: chunk7 rest
  | _ => []

def septetBits (l : List Nat) : List Bool := l.flatMap (lowBits 7)

def byteBits (l : List Nat) : List Bool := l.flatMap (lowBits 8)

@[simp] theorem length_lowBits (w : Nat) : ∀ n, (lowBits w n).length = w := by
  induction w with
  | succ w ih =>
    intro n
    simp [lowBits, ih]
  | zero =>
    intro n
    rfl

theorem lowBits_zero (w : Nat) : lowBits w 0 = List.replicate w false := by
  induction w with
  | zero => rfl
  | succ w ih => simp [lowBits, ih, List.replicate_succ]

theorem bitsVal_lt : ∀ bs : List Bool, bitsVal bs < 2 ^ bs.length := by
  intro bs
  induction bs with
  | nil => simp [bitsVal]
  | cons b rest ih =>
    simp only [bitsVal, List.length_cons, pow_succ]
    by_cases hb : b = true <;> simp [hb] <;> omega

theorem bitsVal_lowBits (w : Nat) : ∀ n, n < 2 ^ w → bitsVal (lowBits w n) = n := by
  induction w with
  | zero =>
    intro n h
    simp at h
    simp [h, lowBits, bitsVal]
  | succ w ih =>
    intro n h
    have hdiv : n / 2 < 2 ^ w := by
      rw [pow_succ] at h
      omega
    simp only [lowBits, bitsVal, ih (n / 2) hdiv]
    by_cases h2 : n % 2 = 1 <;> simp [h2] <;> omega

theorem lowBits_bitsVal : ∀ (bs : List Bool) (w : Nat), bs.length ≤ w →
    lowBits w (bitsVal bs) = bs ++ List.replicate (w - bs.length) false := by
  intro bs
  induction bs with
  | nil =>
    intro w _
    simpa using lowBits_zero w
  | cons b rest ih =>
    intro w hw
    match w with
    | w' + 1 =>
      have hhead : (bitsVal (b :: rest)) % 2 = if b then 1 else 0 := by
        simp only [bitsVal]
        by_cases hb : b = true <;> simp [hb] <;> omega
      have htail : (bitsVal (b :: rest)) / 2 = bitsVal rest := by
        simp only [bitsVal]
        by_cases hb : b = true <;> simp [hb] <;> omega
      simp only [lowBits, hhead, htail, ih w' (by simpa using hw)]
      by_cases hb : b = true <;> simp [hb]

theorem lowBits_split (a w x y : Nat) (hx : x < 2 ^ a) :
    lowBits (a + w) (x + y * 2 ^ a) = lowBits a x ++ lowBits w y := by
  induction a generalizing x y with
  | zero =>
    have : x = 0 := by simpa using hx
    simp [this, lowBits]
  | succ a ih =>
    have hmod : (x + y * 2 ^ (a + 1)) % 2 = x % 2 := by
      rw [pow_succ, ← Nat.mul_assoc]
      exact Nat.add_mul_mod_self_right x (y * 2 ^ a) 2
    have hdivx : (x + y * 2 ^ (a + 1)) / 2 = x / 2 + y * 2 ^ a := by
      rw [pow_succ, ← Nat.mul_assoc]
      exact Nat.add_mul_div_right x (y * 2 ^ a) (by omega)
    have hx2 : x / 2 < 2 ^ a := by
      rw [pow_succ] at hx
      omega
    have : a + 1 + w = (a + w) + 1 := by omega
    rw [this]
    simp only [lowBits, hmod, hdivx, ih (x / 2) y hx2, List.cons_append]

theorem toBytes_eq (bs : List Bool) (h : bs ≠ []) :
    toBytes bs = bitsVal (bs.take 8) :: toBytes (bs.drop 8) := by
  rcases bs with _ | ⟨b0, _ | ⟨b1, _ | ⟨b2, _ | ⟨b3, _ | ⟨b4, _ | ⟨b5, _ | ⟨b6, _ | ⟨b7, rest⟩⟩⟩⟩⟩⟩⟩⟩
  all_goals first
    | exact absurd rfl h
    | rfl

theorem chunk7_eq (bs : List Bool) (h : 7 ≤ bs.length) :
    chunk7 bs = bitsVal (bs.take 7) :: chunk7 (bs.drop 7) := by
  rcases bs with _ | ⟨b0, _ | ⟨b1, _ | ⟨b2, _ | ⟨b3, _ | ⟨b4, _ | ⟨b5, _ | ⟨b6, rest⟩⟩⟩⟩⟩⟩⟩
  all_goals first
    | rfl
    | simp at h

theorem chunk7_short (bs : List Bool) (h : bs.length < 7) : chunk7 bs = [] := by
  rcases bs with _ | ⟨b0, _ | ⟨b1, _ | ⟨b2, _ | ⟨b3, _ | ⟨b4, _ | ⟨b5, _ | ⟨b6, rest⟩⟩⟩⟩⟩⟩⟩
  all_goals first
    | rfl
    | (exfalso; simp at h; omega)

theorem toBytes_mem_lt (bs : List Bool) : ∀ b ∈ toBytes bs, b < 256 := by
  suffices H : ∀ (n : Nat) (bs : List Bool), bs.length = n → ∀ b ∈ toBytes bs, b < 256 by
    exact H bs.length bs rfl
  intro n
  induction n using Nat.strong_induction_on with
  | _ n ih =>
    intro bs hn
    match bs with
    | [] => simp [toBytes]
    | x :: rest =>
      rw [toBytes_eq (x :: rest) (by simp)]
      intro b hb
      rcases List.mem_cons.mp hb with hb | hb
      · subst hb
        calc bitsVal ((x :: rest).take 8) < 2 ^ ((x :: rest).take 8).length :=
              bitsVal_lt _
          _ ≤ 2 ^ 8 := Nat.pow_le_pow_right (by omega) (by
              simpa using List.length_take_le 8 (x :: rest))
          _ = 256 := by norm_num
      · exact ih ((x :: rest).drop 8).length (by simp [← hn]; omega)
          ((x :: rest).drop 8) rfl b hb

theorem length_toBytes (bs : List Bool) :
    (toBytes bs).length = (bs.length + 7) / 8 := by
  suffices H : ∀ (n : Nat) (bs : List Bool), bs.length = n →
      (toBytes bs).length = (bs.length + 7) / 8 by
    exact H bs.length bs rfl
  intro n
  induction n using Nat.strong_induction_on with
  | _ n ih =>
    intro bs hn
    match bs with
    | [] => simp [toBytes]
    | x :: rest =>
      rw [toBytes_eq (x :: rest) (by simp)]
      have hdrop := ih ((x :: rest).drop 8).length (by simp [← hn]; omega)
        ((x :: rest).drop 8) rfl
      simp only [List.length_cons, hdrop, List.length_drop]
      omega

theorem byteBits_cons (b : Nat) (l : List Nat) :
    byteBits (b :: l) = lowBits 8 b ++ byteBits l := by
  simp [byteBits]

theorem septetBits_cons (s : Nat) (l : List Nat) :
    septetBits (s :: l) = lowBits 7 s ++ septetBits l := by
  simp [septetBits]

@[simp] theorem length_septetBits (l : List Nat) :
    (septetBits l).length = 7 * l.length := by
  induction l with
  | nil => simp [septetBits]
  | cons s rest ih =>
    rw [septetBits_cons]
    simp [ih]
    omega

theorem byteBits_toBytes (bs : List Bool) :
    byteBits (toBytes bs) = bs ++ List.replicate ((8 - bs.length % 8) % 8) false := by
  suffices H : ∀ (n : Nat) (bs : List Bool), bs.length = n →
      byteBits (toBytes bs) = bs ++ List.replicate ((8 - bs.length % 8) % 8) false by
    exact H bs.length bs rfl
  intro n
  induction n using Nat.strong_induction_on with
  | _ n ih =>
    intro bs hn
    match bs with
    | [] => simp [toBytes, byteBits]
    | x :: rest =>
      rw [toBytes_eq (x :: rest) (by simp), byteBits_cons]
      have hdrop := ih ((x :: rest).drop 8).length (by simp [← hn]; omega)
        ((x :: rest).drop 8) rfl
      rw [hdrop]
      by_cases hlen : 8 ≤ (x :: rest).length
      · have htake : ((x :: rest).take 8).length = 8 := by
          rw [List.length_take]
          simp at hlen ⊢
          omega
        rw [lowBits_bitsVal ((x :: rest).take 8) 8 (by omega)]
        rw [htake]
        simp only [Nat.sub_self, List.replicate_zero, List.append_nil]
        rw [← List.append_assoc, List.take_append_drop]
        have : (x :: rest).length % 8 = ((x :: rest).drop 8).length % 8 := by
          simp only [List.length_drop]
          omega
        rw [this]
      · have hl : (x :: rest).length = rest.length + 1 := by simp
        have hlt : (x :: rest).length < 8 := by omega
        have hdrop8 : (x :: rest).drop 8 = [] := List.drop_eq_nil_of_le (by omega)
        have htake8 : (x :: rest).take 8 = x :: rest := List.take_of_length_le (by omega)
        rw [hdrop8, htake8, lowBits_bitsVal (x :: rest) 8 (by omega)]
        simp only [List.length_nil, Nat.zero_mod, Nat.sub_zero, Nat.mod_self,
          List.replicate_zero, List.append_nil, List.nil_append, toBytes, byteBits,
          List.flatMap_nil]
        rw [Nat.mod_eq_of_lt hlt,
          Nat.mod_eq_of_lt (show 8 - (x :: rest).length < 8 by omega)]

theorem chunk7_septetBits_append (l : List Nat) (rest : List Bool)
    (h : ∀ x ∈ l, x < 128) :
    chunk7 (septetBits l ++ rest) = l ++ chunk7 rest := by
  induction l with
  | nil => simp [septetBits]
  | cons s tail ih =>
    rw [septetBits_cons, List.append_assoc]
    rw [chunk7_eq _ (by simp)]
    rw [List.take_left' (by simp), List.drop_left' (by simp)]
    rw [bitsVal_lowBits 7 s (by
      have := h s (by simp)
      omega)]
    rw [ih (fun x hx => h x (by simp [hx]))]
    rfl

end Bits

/-! ## `pack7Bit` / `unpack7Bit` implement the bit-stream semantics -/

theorem lor_shiftLeft_eq_add (buffer x bits : Nat) (h : buffer < 2 ^ bits) :
    buffer ||| (x <<< bits) = buffer + x * 2 ^ bits := by
  rw [Nat.shiftLeft_eq, Nat.lor_comm, Nat.mul_comm x (2 ^ bits),
    ← Nat.mul_add_lt_is_or h x, Nat.add_comm]

theorem packAux_toBytes : ∀ (l : List Nat) (buffer bits : Nat), bits < 8 →
    buffer < 2 ^ bits → (∀ x ∈ l, x < 128) →
    Pdu.packAux l buffer bits =
      Bits.toBytes (Bits.lowBits bits buffer ++ Bits.septetBits l) := by
  intro l
  induction l with
  | nil =>
    intro buffer bits hbits hbuf _
    simp only [Pdu.packAux, Bits.septetBits, List.flatMap_nil, List.append_nil]
    by_cases h0 : 0 < bits
    · rw [if_pos h0]
      rw [Bits.toBytes_eq _ (by
        intro hnil
        have := congrArg List.length hnil
        simp at this
        omega)]
      rw [List.take_of_length_le (by simp; omega),
        List.drop_eq_nil_of_le (by simp; omega)]
      rw [Bits.bitsVal_lowBits bits buffer hbuf]
      rw [Nat.mod_eq_of_lt (by
        have h2 : (2:Nat) ^ bits ≤ 128 := by
          rw [show (128:Nat) = 2 ^ 7 from rfl]
          exact Nat.pow_le_pow_right (by omega) (by omega)
        omega)]
      rfl
    · rw [if_neg h0]
      have hb0 : bits = 0 := by omega
      subst hb0
      have hbuf0 : buffer = 0 := by
        rw [show (2:Nat) ^ 0 = 1 from rfl] at hbuf
        omega
      subst hbuf0
      rfl
  | cons s rest ih =>
    intro buffer bits hbits hbuf hmem
    have hs : s < 128 := hmem s (by simp)
    have hbridge : buffer ||| (s <<< bits) = buffer + s * 2 ^ bits :=
      lor_shiftLeft_eq_add buffer s bits hbuf
    have hvlt : buffer + s * 2 ^ bits < 2 ^ (bits + 7) := by
      have h1 : buffer + s * 2 ^ bits < (s + 1) * 2 ^ bits := by
        have : (s + 1) * 2 ^ bits = s * 2 ^ bits + 2 ^ bits := by ring
        omega
      have h2 : (s + 1) * 2 ^ bits ≤ 128 * 2 ^ bits :=
        Nat.mul_le_mul_right _ (by omega)
      have h3 : 128 * 2 ^ bits = 2 ^ (bits + 7) := by
        rw [pow_add]
        ring
      omega
    show (Pdu.packFlush (buffer ||| (s <<< bits)) (bits + 7)).1 ++
        Pdu.packAux rest (Pdu.packFlush (buffer ||| (s <<< bits)) (bits + 7)).2.1
          (Pdu.packFlush (buffer ||| (s <<< bits)) (bits + 7)).2.2 =
      Bits.toBytes (Bits.lowBits bits buffer ++ Bits.septetBits (s :: rest))
    rw [hbridge]
    rw [Bits.septetBits_cons, ← List.append_assoc,
      ← Bits.lowBits_split bits 7 buffer s hbuf]
    by_cases hb : 1 ≤ bits
    · have hflush : Pdu.packFlush (buffer + s * 2 ^ bits) (bits + 7) =
          ([(buffer + s * 2 ^ bits) % 256], (buffer + s * 2 ^ bits) / 256,
            bits - 1) := by
        rw [Pdu.packFlush_step, if_pos (by omega), Pdu.packFlush_step,
          if_neg (by omega)]
        have he : bits + 7 - 8 = bits - 1 := by omega
        rw [he]
      rw [hflush]
      have hdivlt : (buffer + s * 2 ^ bits) / 256 < 2 ^ (bits - 1) := by
        have h1 : bits + 7 = (bits - 1) + 8 := by omega
        rw [h1, pow_add, show (2:Nat) ^ 8 = 256 from rfl] at hvlt
        omega
      rw [ih ((buffer + s * 2 ^ bits) / 256) (bits - 1) (by omega) hdivlt
        (fun x hx => hmem x (by simp [hx]))]
      have hsplit2 : Bits.lowBits (bits + 7) (buffer + s * 2 ^ bits) =
          Bits.lowBits 8 ((buffer + s * 2 ^ bits) % 256) ++
            Bits.lowBits (bits - 1) ((buffer + s * 2 ^ bits) / 256) := by
        have h256 : (buffer + s * 2 ^ bits) % 256 +
            (buffer + s * 2 ^ bits) / 256 * 2 ^ 8 = buffer + s * 2 ^ bits := by
          rw [show (2:Nat) ^ 8 = 256 from rfl]
          omega
        have h8 : 8 + (bits - 1) = bits + 7 := by omega
        have h := Bits.lowBits_split 8 (bits - 1) ((buffer + s * 2 ^ bits) % 256)
          ((buffer + s * 2 ^ bits) / 256) (by
          rw [show (2:Nat) ^ 8 = 256 from rfl]
          exact Nat.mod_lt _ (by omega))
        rw [h256, h8] at h
        exact h
      rw [hsplit2, List.append_assoc]
      rw [Bits.toBytes_eq
        (Bits.lowBits 8 ((buffer + s * 2 ^ bits) % 256) ++
          (Bits.lowBits (bits - 1) ((buffer + s * 2 ^ bits) / 256) ++
            Bits.septetBits rest)) (by
        intro hnil
        have := congrArg List.length hnil
        simp at this)]
      rw [List.take_left' (by simp), List.drop_left' (by simp)]
      rw [Bits.bitsVal_lowBits 8 _ (by
        rw [show (2:Nat) ^ 8 = 256 from rfl]
        exact Nat.mod_lt _ (by omega))]
      rfl
    · have hb0 : bits = 0 := by omega
      subst hb0
      have hbuf0 : buffer = 0 := by
        have : (2:Nat) ^ 0 = 1 := rfl
        omega
      subst hbuf0
      have hflush : Pdu.packFlush (0 + s * 2 ^ 0) (0 + 7) = ([], s, 7) := by
        rw [Pdu.packFlush_step, if_neg (by omega)]
        simp
      rw [hflush]
      rw [ih s 7 (by omega) (by
        rw [show (2:Nat) ^ 7 = 128 from rfl]
        omega) (fun x hx => hmem x (by simp [hx]))]
      have : (0 : Nat) + s * 2 ^ 0 = s := by simp
      rw [this]
      rfl

theorem pack7Bit_toBytes (l : List Nat) (h : ∀ x ∈ l, x < 128) :
    Pdu.pack7Bit l = Bits.toBytes (Bits.septetBits l) := by
  unfold Pdu.pack7Bit
  by_cases hl : l = []
  · subst hl
    rfl
  · rw [if_neg hl, packAux_toBytes l 0 0 (by omega) (by omega) h]
    rfl

theorem unpackFlush_chunk : ∀ (bits buffer rem : Nat) (tail : List Bool),
    buffer < 2 ^ bits →
    ((Pdu.unpackFlush buffer bits rem).1 ++
        List.take (Pdu.unpackFlush buffer bits rem).2.2.2
          (Bits.chunk7 (Bits.lowBits (Pdu.unpackFlush buffer bits rem).2.2.1
            (Pdu.unpackFlush buffer bits rem).2.1 ++ tail)) =
      List.take rem (Bits.chunk7 (Bits.lowBits bits buffer ++ tail))) ∧
    (Pdu.unpackFlush buffer bits rem).2.1 <
      2 ^ (Pdu.unpackFlush buffer bits rem).2.2.1 ∧
    (0 < (Pdu.unpackFlush buffer bits rem).2.2.2 →
      (Pdu.unpackFlush buffer bits rem).2.2.1 < 7) ∧
    (Pdu.unpackFlush buffer bits rem).2.2.2 ≤ rem := by
  intro bits
  induction bits using Nat.strong_induction_on with
  | _ bits ih =>
    intro buffer rem tail hbuf
    rw [Pdu.unpackFlush_step]
    by_cases hc : 7 ≤ bits ∧ 0 < rem
    · rw [if_pos hc]
      dsimp only
      have hdivlt : buffer / 128 < 2 ^ (bits - 7) := by
        have h1 : (2:Nat) ^ bits = 2 ^ (bits - 7) * 128 := by
          rw [show bits = (bits - 7) + 7 by omega, pow_add]
          norm_num
        omega
      obtain ⟨ihEq, ihInv, ihBits, ihRem⟩ :=
        ih (bits - 7) (by omega) (buffer / 128) (rem - 1) tail hdivlt
      refine ⟨?_, ihInv, ihBits, by omega⟩
      rw [List.cons_append, ihEq]
      have h128 : buffer % 128 + buffer / 128 * 2 ^ 7 = buffer := by
        rw [show (2:Nat) ^ 7 = 128 from rfl]
        omega
      have hsplit : Bits.lowBits bits buffer =
          Bits.lowBits 7 (buffer % 128) ++ Bits.lowBits (bits - 7) (buffer / 128) := by
        have h7 : 7 + (bits - 7) = bits := by omega
        have h := Bits.lowBits_split 7 (bits - 7) (buffer % 128) (buffer / 128) (by
          rw [show (2:Nat) ^ 7 = 128 from rfl]
          exact Nat.mod_lt _ (by omega))
        rw [h128, h7] at h
        exact h
      rw [hsplit, List.append_assoc,
        Bits.chunk7_eq (Bits.lowBits 7 (buffer % 128) ++
          (Bits.lowBits (bits - 7) (buffer / 128) ++ tail)) (by simp)]
      rw [List.take_left' (by simp), List.drop_left' (by simp)]
      rw [Bits.bitsVal_lowBits 7 (buffer % 128) (by
        rw [show (2:Nat) ^ 7 = 128 from rfl]
        exact Nat.mod_lt _ (by omega))]
      rw [show rem = (rem - 1) + 1 by omega, List.take_succ_cons,
        Nat.add_sub_cancel]
    · rw [if_neg hc]
      dsimp only
      refine ⟨rfl, hbuf, ?_, le_refl rem⟩
      intro hrem
      rcases not_and_or.mp hc with h | h
      · omega
      · omega

theorem unpackAux_chunk : ∀ (data : List Nat) (buffer bits rem : Nat),
    buffer < 2 ^ bits → bits < 7 → (∀ x ∈ data, x < 256) →
    Pdu.unpackAux data buffer bits rem =
      List.take rem (Bits.chunk7 (Bits.lowBits bits buffer ++ Bits.byteBits data)) := by
  intro data
  induction data with
  | nil =>
    intro buffer bits rem hbuf hbits _
    simp only [Pdu.unpackAux, Bits.byteBits, List.flatMap_nil, List.append_nil]
    rw [Bits.chunk7_short _ (by simp; omega)]
    simp
  | cons b rest ih =>
    intro buffer bits rem hbuf hbits hmem
    have hb : b < 256 := hmem b (by simp)
    have hbridge : buffer ||| (b <<< bits) = buffer + b * 2 ^ bits :=
      lor_shiftLeft_eq_add buffer b bits hbuf
    have hvlt : buffer + b * 2 ^ bits < 2 ^ (bits + 8) := by
      have h1 : buffer + b * 2 ^ bits < (b + 1) * 2 ^ bits := by
        have : (b + 1) * 2 ^ bits = b * 2 ^ bits + 2 ^ bits := by ring
        omega
      have h2 : (b + 1) * 2 ^ bits ≤ 256 * 2 ^ bits :=
        Nat.mul_le_mul_right _ (by omega)
      have h3 : 256 * 2 ^ bits = 2 ^ (bits + 8) := by
        rw [pow_add]
        ring
      omega
    show (if (Pdu.unpackFlush (buffer ||| (b <<< bits)) (bits + 8) rem).2.2.2 = 0
        then (Pdu.unpackFlush (buffer ||| (b <<< bits)) (bits + 8) rem).1
        else (Pdu.unpackFlush (buffer ||| (b <<< bits)) (bits + 8) rem).1 ++
          Pdu.unpackAux rest
            (Pdu.unpackFlush (buffer ||| (b <<< bits)) (bits + 8) rem).2.1
            (Pdu.unpackFlush (buffer ||| (b <<< bits)) (bits + 8) rem).2.2.1
            (Pdu.unpackFlush (buffer ||| (b <<< bits)) (bits + 8) rem).2.2.2) =
      List.take rem (Bits.chunk7 (Bits.lowBits bits buffer ++ Bits.byteBits (b :: rest)))
    rw [hbridge]
    have hsplit : Bits.lowBits bits buffer ++ Bits.byteBits (b :: rest) =
        Bits.lowBits (bits + 8) (buffer + b * 2 ^ bits) ++ Bits.byteBits rest := by
      rw [Bits.byteBits_cons, ← List.append_assoc,
        ← Bits.lowBits_split bits 8 buffer b hbuf]
    rw [hsplit]
    obtain ⟨ufEq, ufInv, ufBits, ufRem⟩ :=
      unpackFlush_chunk (bits + 8) (buffer + b * 2 ^ bits) rem (Bits.byteBits rest)
        hvlt
    by_cases hz : (Pdu.unpackFlush (buffer + b * 2 ^ bits) (bits + 8) rem).2.2.2 = 0
    · rw [if_pos hz]
      rw [hz] at ufEq
      simpa using ufEq
    · rw [if_neg hz]
      rw [ih _ _ _ ufInv (ufBits (by omega))
        (fun x hx => hmem x (by simp [hx]))]
      exact ufEq

theorem unpack7Bit_chunk (data : List Nat) (len : Nat)
    (hmem : ∀ x ∈ data, x < 256) :
    Pdu.unpack7Bit data len = List.take len (Bits.chunk7 (Bits.byteBits data)) := by
  unfold Pdu.unpack7Bit
  by_cases h : data = [] ∨ len = 0
  · rw [if_pos h]
    rcases h with h | h
    · subst h
      rw [show Bits.byteBits [] = [] from rfl, Bits.chunk7_short [] (by simp)]
      simp
    · subst h
      simp
  · rw [if_neg h]
    have := unpackAux_chunk data 0 0 len (by omega) (by omega) hmem
    simpa using this

/-- The packing round trip at septet level: unpacking `length l` septets
from the packed form of `l` returns `l` (for genuine septets). -/
theorem unpack_pack_roundtrip (l : List Nat) (h : ∀ x ∈ l, x < 128) :
    Pdu.unpack7Bit (Pdu.pack7Bit l) l.length = l := by
  rw [pack7Bit_toBytes l h,
    unpack7Bit_chunk _ _ (Bits.toBytes_mem_lt _),
    Bits.byteBits_toBytes,
    Bits.chunk7_septetBits_append l _ h]
  have := List.take_left l (Bits.chunk7
    (List.replicate ((8 - (Bits.septetBits l).length % 8) % 8) false))
  exact this

/-! ## The GSM-7 character layer -/

/-- Number of septets a text occupies: extension characters take two
(escape plus code), all others one — the count the repository's own test
(`TestEncodeDecode7BitExtended`) passes to `Decode7Bit`. -/
def septetCount (s : List Char) : Nat :=
  (s.map (fun c => if (Pdu.extCode c).isSome then 2 else 1)).sum

/-- A character is GSM-7 encodable iff `Encode7Bit` can map it: extension
table first, then the default table. -/
def gsm7Encodable (c : Char) : Bool :=
  (Pdu.extCode c).isSome ∨ (Pdu.gsm7bitRunes.findIdx? (fun x => x = c)).isSome

theorem extCode_pair {c : Char} {e : Nat} (h : Pdu.extCode c = some e) :
    ∃ p ∈ Pdu.gsm7ExtPairs, p.1 = c.toNat ∧ p.2 = e := by
  unfold Pdu.extCode at h
  obtain ⟨p, hfind, hpe⟩ := Option.map_eq_some'.mp h
  have hmem := List.mem_of_find?_eq_some hfind
  have hpred := List.find?_some hfind
  rw [decide_eq_true_eq] at hpred
  exact ⟨p, hmem, hpred, hpe⟩

theorem extCode_lt {c : Char} {e : Nat} (h : Pdu.extCode c = some e) : e < 128 := by
  obtain ⟨p, hmem, _, hpe⟩ := extCode_pair h
  have hall : ∀ p ∈ Pdu.gsm7ExtPairs, p.2 < 128 := by decide
  rw [← hpe]
  exact hall p hmem

theorem extCode_reverse {c : Char} {e : Nat} (h : Pdu.extCode c = some e) :
    Pdu.extReverse e = some c := by
  obtain ⟨p, hmem, hp1, hpe⟩ := extCode_pair h
  have hall : ∀ p ∈ Pdu.gsm7ExtPairs, Pdu.extReverse p.2 = some (Char.ofNat p.1) := by
    decide
  rw [← hpe, hall p hmem, hp1, Char.ofNat_toNat]

theorem gsm7bitRunes_length : Pdu.gsm7bitRunes.length = 128 := by decide

theorem findIdx_table {c : Char} {i : Nat}
    (h : Pdu.gsm7bitRunes.findIdx? (fun x => x = c) = some i) :
    i < 128 ∧ Pdu.gsm7bitRunes.getD i (Char.ofNat 0) = c := by
  obtain ⟨hlt, hidx⟩ := List.findIdx?_eq_some_iff_findIdx_eq.mp h
  have hlt' : i < 128 := by
    rw [← gsm7bitRunes_length]
    exact hlt
  refine ⟨hlt', ?_⟩
  have hw : Pdu.gsm7bitRunes.findIdx (fun x => decide (x = c)) <
      Pdu.gsm7bitRunes.length := by
    rw [hidx]
    exact hlt
  have hg := @List.findIdx_getElem _ (fun x => decide (x = c)) Pdu.gsm7bitRunes hw
  rw [decide_eq_true_eq] at hg
  simp only [hidx] at hg
  rw [List.getD_eq_getElem?_getD, List.getElem?_eq_getElem hlt, Option.getD_some, hg]

/-- The septet list built by `Encode7Bit` consists of genuine septets,
has `septetCount` entries, and (in the absence of the escape character)
decodes back to the original text. -/
theorem encode7Septets_spec : ∀ (s : List Char) (l : List Nat),
    Pdu.encode7Septets s = some l →
    (∀ x ∈ l, x < 128) ∧ l.length = septetCount s ∧
    ((∀ c ∈ s, c ≠ Char.ofNat 27) → Pdu.decode7Septets false l = s) := by
  intro s
  induction s with
  | nil =>
    intro l h
    simp only [Pdu.encode7Septets, Option.some.injEq] at h
    subst h
    refine ⟨by simp, by simp [septetCount], fun _ => rfl⟩
  | cons c rest ih =>
    intro l h
    simp only [Pdu.encode7Septets] at h
    cases hext : Pdu.extCode c with
    | some e =>
      rw [hext] at h
      obtain ⟨l', hl', rfl⟩ := Option.map_eq_some'.mp h
      obtain ⟨ih1, ih2, ih3⟩ := ih l' hl'
      have he : e < 128 := extCode_lt hext
      refine ⟨?_, ?_, ?_⟩
      · intro x hx
        rcases List.mem_cons.mp hx with rfl | hx
        · omega
        · rcases List.mem_cons.mp hx with rfl | hx
          · omega
          · exact ih1 x hx
      · simp [septetCount, hext] at ih2 ⊢
        omega
      · intro hesc
        have hrev := extCode_reverse hext
        have hstep : Pdu.decode7Septets false (27 :: e :: l') =
            match Pdu.extReverse e with
            | some r => r :: Pdu.decode7Septets false l'
            | none => Pdu.decode7Septets false l' := rfl
        rw [hstep, hrev]
        show c :: Pdu.decode7Septets false l' = c :: rest
        rw [ih3 (fun x hx => hesc x (by simp [hx]))]
    | none =>
      rw [hext] at h
      cases hidx : Pdu.gsm7bitRunes.findIdx? (fun x => x = c) with
      | none =>
        rw [hidx] at h
        cases h
      | some i =>
        rw [hidx] at h
        obtain ⟨l', hl', rfl⟩ := Option.map_eq_some'.mp h
        obtain ⟨ih1, ih2, ih3⟩ := ih l' hl'
        obtain ⟨hlt, hget⟩ := findIdx_table hidx
        refine ⟨?_, ?_, ?_⟩
        · intro x hx
          rcases List.mem_cons.mp hx with rfl | hx
          · omega
          · exact ih1 x hx
        · simp [septetCount, hext] at ih2 ⊢
          omega
        · intro hesc
          have hi27 : ¬ i = 27 := by
            intro h27
            subst h27
            have : Pdu.gsm7bitRunes.getD 27 (Char.ofNat 0) = Char.ofNat 27 := by
              decide
            exact hesc c (by simp) (by rw [← hget, this])
          have hstep : Pdu.decode7Septets false (i :: l') =
              if i = 27 then Pdu.decode7Septets true l'
              else if i < Pdu.gsm7bitRunes.length then
                Pdu.gsm7bitRunes.getD i (Char.ofNat 0) :: Pdu.decode7Septets false l'
              else Pdu.decode7Septets false l' := rfl
          rw [hstep, if_neg hi27,
            if_pos (by rw [gsm7bitRunes_length]; exact hlt)]
          rw [hget, ih3 (fun x hx => hesc x (by simp [hx]))]

theorem encode7Septets_total : ∀ s : List Char,
    (∀ c ∈ s, gsm7Encodable c = true) → ∃ l, Pdu.encode7Septets s = some l := by
  intro s
  induction s with
  | nil => exact fun _ => ⟨[], rfl⟩
  | cons c rest ih =>
    intro h
    obtain ⟨l', hl'⟩ := ih (fun x hx => h x (by simp [hx]))
    have hc := h c (by simp)
    cases hext : Pdu.extCode c with
    | some e => exact ⟨27 :: e :: l', by simp [Pdu.encode7Septets, hext, hl']⟩
    | none =>
      cases hidx : Pdu.gsm7bitRunes.findIdx? (fun x => x = c) with
      | none =>
        exfalso
        unfold gsm7Encodable at hc
        rw [hext, hidx] at hc
        simp at hc
      | some i => exact ⟨i :: l', by simp [Pdu.encode7Septets, hext, hidx, hl']⟩

/-- C5 amended: for every text of GSM-7 encodable characters, none of
which is the escape character U+001B, decoding the packed encoding with
the text's septet count (extension characters counting two) recovers the
text exactly. -/
theorem encode7_decode7_septet_roundtrip (s : List Char)
    (henc : ∀ c ∈ s, gsm7Encodable c = true)
    (hesc : ∀ c ∈ s, c ≠ Char.ofNat 27) :
    ∃ data, Pdu.Encode7Bit s = some data ∧
      Pdu.Decode7Bit data (septetCount s) = s := by
  obtain ⟨l, hl⟩ := encode7Septets_total s henc
  obtain ⟨h128, hlen, hdec⟩ := encode7Septets_spec s l hl
  refine ⟨Pdu.pack7Bit l, ?_, ?_⟩
  · simp [Pdu.Encode7Bit, hl]
  · unfold Pdu.Decode7Bit
    rw [← hlen, unpack_pack_roundtrip l h128, hdec hesc]

/-- Witness for C5 at the text `a€` (one plain and one extension
character, three septets). -/
theorem encode7_decode7_septet_roundtrip_witness :
    ((∀ c ∈ ('a' :: '€' :: []), gsm7Encodable c = true) ∧
      (∀ c ∈ ('a' :: '€' :: []), c ≠ Char.ofNat 27)) ∧
    (∃ data, Pdu.Encode7Bit ('a' :: '€' :: []) = some data ∧
      Pdu.Decode7Bit data (septetCount ('a' :: '€' :: [])) = 'a' :: '€' :: []) :=
  ⟨⟨by decide, by decide⟩,
    encode7_decode7_septet_roundtrip ('a' :: '€' :: []) (by decide) (by decide)⟩

/-- C6 amended: for every septet sequence (elements below 128), the
packed output has exactly `ceil(7L/8)` bytes; equivalently
`7L ≤ 8·bytes < 7L + 8`. -/
theorem pack7Bit_length_eq_ceil (l : List Nat) (h : ∀ b ∈ l, b < 128) :
    (Pdu.pack7Bit l).length = (7 * l.length + 7) / 8 ∧
    7 * l.length ≤ 8 * (Pdu.pack7Bit l).length ∧
    8 * (Pdu.pack7Bit l).length < 7 * l.length + 8 := by
  have hlen : (Pdu.pack7Bit l).length = (7 * l.length + 7) / 8 := by
    rw [pack7Bit_toBytes l h, Bits.length_toBytes, Bits.length_septetBits]
  exact ⟨hlen, by rw [hlen]; omega, by rw [hlen]; omega⟩

/-- Witness for C6 at the septets `[1, 2, 3]`. -/
theorem pack7Bit_length_eq_ceil_witness :
    (∀ b ∈ ([1, 2, 3] : List Nat), b < 128) ∧
    ((Pdu.pack7Bit [1, 2, 3]).length = (7 * ([1, 2, 3] : List Nat).length + 7) / 8 ∧
      7 * ([1, 2, 3] : List Nat).length ≤ 8 * (Pdu.pack7Bit [1, 2, 3]).length ∧
      8 * (Pdu.pack7Bit [1, 2, 3]).length < 7 * ([1, 2, 3] : List Nat).length + 8) :=
  ⟨by decide, pack7Bit_length_eq_ceil [1, 2, 3] (by decide)⟩

/-! ## C3 / C4: URC classification of `+CME ERROR` and `+CREG:` lines -/

theorem fpm_skip {item line : List Char} {rest : List (List Char)}
    (h : item.isPrefixOf line = false) :
    At.firstPrefixMatch (item :: rest) line = At.firstPrefixMatch rest line := by
  simp [At.firstPrefixMatch, h]

theorem fpm_hit {item line : List Char} {rest : List (List Char)}
    (h1 : item ≠ []) (h2 : item.isPrefixOf line = true) :
    At.firstPrefixMatch (item :: rest) line = item := by
  simp [At.firstPrefixMatch, h1, h2]

/-- Scanning the default URC prefixes, a line starting with `+CME ERROR`
matches exactly the `CMEError` entry. -/
theorem findURC_cmeLine (s : List Char) :
    At.firstPrefixMatch At.allNotifications ("+CME ERROR".toList ++ s) =
      "+CME ERROR".toList := by
  simp only [At.allNotifications]
  rw [fpm_skip, fpm_skip, fpm_skip, fpm_skip, fpm_skip, fpm_skip, fpm_skip,
    fpm_skip, fpm_skip, fpm_skip, fpm_skip, fpm_skip, fpm_skip, fpm_skip,
    fpm_skip, fpm_skip, fpm_skip, fpm_skip, fpm_skip, fpm_skip, fpm_skip,
    fpm_skip, fpm_skip, fpm_skip, fpm_skip, fpm_skip, fpm_skip, fpm_skip,
    fpm_skip, fpm_skip, fpm_skip, fpm_skip, fpm_skip, fpm_skip, fpm_skip,
    fpm_skip, fpm_skip, fpm_skip, fpm_skip, fpm_skip, fpm_skip, fpm_skip,
    fpm_skip, fpm_skip, fpm_hit]
  all_goals first
    | exact isPrefixOf_append_take_ne (by decide)
    | exact isPrefixOf_append_left s (by decide)
    | decide

/-- Scanning the default URC prefixes, a line starting with `+CREG:`
matches exactly the `NetworkReg` entry. -/
theorem findURC_cregLine (s : List Char) :
    At.firstPrefixMatch At.allNotifications ("+CREG:".toList ++ s) =
      "+CREG".toList := by
  simp only [At.allNotifications]
  rw [fpm_skip, fpm_skip, fpm_skip, fpm_skip, fpm_skip, fpm_skip, fpm_skip,
    fpm_skip, fpm_skip, fpm_skip, fpm_skip, fpm_skip, fpm_skip, fpm_skip,
    fpm_skip, fpm_skip, fpm_skip, fpm_hit]
  all_goals first
    | exact isPrefixOf_append_take_ne (by decide)
    | exact isPrefixOf_append_left s (by decide)
    | decide

/-- C3 counterexample: with no command in flight (empty current-command
string), the line `+CME ERROR: 10` IS classified as a URC by
`IsNotification`, so it is routed to the URC handler, contradicting the
claim that such a line is never routed there for every value of the
current command. -/
theorem cmeError_urc_when_idle :
    At.isNotification ("+CME ERROR: 10".toList) [] = true := by
  decide

/-- C3 amended: a line beginning `+CME ERROR` is always a final-result
line, and whenever a command is in flight (non-empty current-command
string) it is never classified as a URC. -/
theorem cmeError_final_not_urc_in_flight (s : List Char) (c : Char)
    (cs : List Char) :
    At.isNotification ("+CME ERROR".toList ++ s) (c :: cs) = false ∧
    At.isFinal ("+CME ERROR".toList ++ s) = true := by
  constructor
  · simp only [At.isNotification, findURC_cmeLine]
    rw [if_pos ⟨by simp, by decide, by decide⟩, if_pos (by decide)]
  · unfold At.isFinal
    refine List.any_eq_true.mpr ⟨"+CME ERROR".toList, by decide, ?_⟩
    rw [decide_eq_true_eq]
    exact ⟨by decide, isPrefixOf_append_left s (by decide)⟩

/-- C4: a line beginning `+CREG:` while the in-flight command starts with
`AT+CREG` is not classified as a URC (so it stays in the command's
response stream). -/
theorem creg_response_not_urc (s t : List Char) :
    At.isNotification ("+CREG:".toList ++ s) ("AT+CREG".toList ++ t) = false := by
  have hcmd : ("AT+CREG".toList ++ t) ≠ [] := by
    rw [show "AT+CREG".toList = 'A' :: "T+CREG".toList from rfl, List.cons_append]
    simp
  have hat : ("AT".toList ++ "+CREG".toList).isPrefixOf
      ("AT+CREG".toList ++ t) = true := by
    rw [show ("AT".toList ++ "+CREG".toList) = "AT+CREG".toList from by decide]
    exact isPrefixOf_append_left t (by decide)
  simp only [At.isNotification, findURC_cregLine]
  rw [if_pos ⟨hcmd, by decide, by decide⟩, if_neg (by decide), if_pos hat]

/-! ## C9: silent dropping of unmappable escape sequences -/

/-- C9: the GSM-7 decoder is total; an escape septet 0x1B followed by a
code with no extension-table entry contributes no output characters, and a
trailing unpaired 0x1B contributes no output either (whatever the escape
state the preceding input left behind). -/
theorem decode7_drops_unmapped_escapes (s t : List Nat) (e : Bool) (c : Nat)
    (h : Pdu.extReverse c = none) :
    Pdu.decode7Septets false (27 :: c :: s) = Pdu.decode7Septets false s ∧
    Pdu.decode7Septets e (t ++ [27]) = Pdu.decode7Septets e t := by
  constructor
  · simp [Pdu.decode7Septets, h]
  · induction t generalizing e with
    | nil =>
      cases e <;> simp [Pdu.decode7Septets,
        show Pdu.extReverse 27 = none from rfl]
    | cons x t ih =>
      cases e with
      | true =>
        cases hx : Pdu.extReverse x <;>
          simp [Pdu.decode7Septets, hx, ih]
      | false =>
        by_cases hx : x = 27
        · simp [Pdu.decode7Septets, hx, ih]
        · simp only [List.cons_append, Pdu.decode7Septets, hx, if_false]
          split <;> simp [ih]

/-- Witness for C9 with extension-free code 0 after the escape. -/
theorem decode7_drops_unmapped_escapes_witness :
    Pdu.extReverse 0 = none ∧
    (Pdu.decode7Septets false (27 :: 0 :: [65]) = Pdu.decode7Septets false [65] ∧
      Pdu.decode7Septets false ([66] ++ [27]) = Pdu.decode7Septets false [66]) :=
  ⟨by decide, decode7_drops_unmapped_escapes [65] [66] false 0 (by decide)⟩

/-! ## C7: phone-number round trip -/

theorem swapNibbles_swapNibbles : ∀ l : List Char,
    Pdu.SwapNibbles (Pdu.SwapNibbles l) = l
  | [] => rfl
  | [_] => rfl
  | a :: b :: rest => by
    simp [Pdu.SwapNibbles, swapNibbles_swapNibbles rest]

theorem mem_swapNibbles : ∀ (l : List Char) (a : Char),
    a ∈ Pdu.SwapNibbles l ↔ a ∈ l
  | [], _ => Iff.rfl
  | [_], _ => Iff.rfl
  | x :: y :: rest, a => by
    simp [Pdu.SwapNibbles, mem_swapNibbles rest a]
    tauto

theorem phoneScan_digits (n : List Char)
    (h : ∀ c ∈ n, Pdu.isAsciiDigit c = true) : Pdu.phoneScan n = (false, n) := by
  induction n with
  | nil => rfl
  | cons c rest ih =>
    have hc : Pdu.isAsciiDigit c = true := h c (by simp)
    have hplus : ¬ c = '+' := by
      intro he
      subst he
      revert hc
      decide
    simp [Pdu.phoneScan, hplus, hc, ih (fun x hx => h x (by simp [hx]))]

theorem trimSuffixF_digits (n : List Char)
    (h : ∀ c ∈ n, Pdu.isAsciiDigit c = true) : Pdu.trimSuffixF n = n := by
  unfold Pdu.trimSuffixF
  rw [if_neg]
  intro hs
  have hsuf : ['F'] <:+ n := by
    have := List.isSuffixOf_iff_suffix.mp hs
    exact this
  obtain ⟨t, ht⟩ := hsuf
  have hmem : ('F' : Char) ∈ n := by
    rw [← ht]
    simp
  exact absurd (h 'F' hmem) (by decide)

theorem trimSuffixF_concat (n : List Char) : Pdu.trimSuffixF (n ++ ['F']) = n := by
  unfold Pdu.trimSuffixF
  rw [if_pos]
  · simp
  · show (['F'].isSuffixOf (n ++ ['F'])) = true
    rw [List.isSuffixOf_iff_suffix]
    exact List.suffix_append n ['F']

/-- C7: for every digit-only phone number, decoding the encoder's output
(with the encoder's address type) returns the number exactly — for even
and odd digit counts alike — and for the `+`-prefixed form the decoded
number keeps the leading `+` while the encoded octet string never
contains `+`. -/
theorem phoneNumber_roundtrip (n : List Char)
    (h : ∀ c ∈ n, Pdu.isAsciiDigit c = true) :
    (Pdu.DecodePhoneNumber (Pdu.EncodePhoneNumber n).2
        (Pdu.EncodePhoneNumber n).1 = n ∧
      '+' ∉ (Pdu.EncodePhoneNumber n).2) ∧
    (Pdu.DecodePhoneNumber (Pdu.EncodePhoneNumber ('+' :: n)).2
        (Pdu.EncodePhoneNumber ('+' :: n)).1 = '+' :: n ∧
      '+' ∉ (Pdu.EncodePhoneNumber ('+' :: n)).2) := by
  have hscan := phoneScan_digits n h
  have hscanp : Pdu.phoneScan ('+' :: n) = (true, n) := by
    simp [Pdu.phoneScan, hscan]
  have hpad : Pdu.trimSuffixF (if n.length % 2 ≠ 0 then n ++ ['F'] else n) = n := by
    by_cases hp : n.length % 2 = 0
    · simp [hp, trimSuffixF_digits n h]
    · simp [hp, trimSuffixF_concat]
  have hnoplus : '+' ∉ Pdu.SwapNibbles (if n.length % 2 ≠ 0 then n ++ ['F'] else n) := by
    rw [mem_swapNibbles]
    intro hmem
    by_cases hp : n.length % 2 = 0
    · rw [if_neg (by omega)] at hmem
      exact absurd (h '+' hmem) (by decide)
    · rw [if_pos (by omega)] at hmem
      rcases List.mem_append.mp hmem with hm | hm
      · exact absurd (h '+' hm) (by decide)
      · simp at hm
  have henc : Pdu.EncodePhoneNumber n =
      (Pdu.AddressTypeUnknown,
        Pdu.SwapNibbles (if n.length % 2 ≠ 0 then n ++ ['F'] else n)) := by
    simp [Pdu.EncodePhoneNumber, hscan]
  have hencp : Pdu.EncodePhoneNumber ('+' :: n) =
      (Pdu.AddressTypeInternational,
        Pdu.SwapNibbles (if n.length % 2 ≠ 0 then n ++ ['F'] else n)) := by
    simp [Pdu.EncodePhoneNumber, hscanp]
  refine ⟨⟨?_, ?_⟩, ⟨?_, ?_⟩⟩
  · rw [henc]
    unfold Pdu.DecodePhoneNumber
    rw [if_neg (show ¬Pdu.AddressTypeUnknown = Pdu.AddressTypeAlphanumeric by decide),
      swapNibbles_swapNibbles, hpad,
      if_neg (show ¬Pdu.AddressTypeUnknown = Pdu.AddressTypeInternational by decide)]
  · rw [henc]
    exact hnoplus
  · rw [hencp]
    unfold Pdu.DecodePhoneNumber
    rw [if_neg (show ¬Pdu.AddressTypeInternational = Pdu.AddressTypeAlphanumeric by decide),
      swapNibbles_swapNibbles, hpad,
      if_pos (show Pdu.AddressTypeInternational = Pdu.AddressTypeInternational from rfl)]
  · rw [hencp]
    exact hnoplus

/-- Witness for C7 at the odd-length digit-only number `123`. -/
theorem phoneNumber_roundtrip_witness :
    (∀ c ∈ ("123".toList), Pdu.isAsciiDigit c = true) ∧
    Pdu.DecodePhoneNumber (Pdu.EncodePhoneNumber ("123".toList)).2
        (Pdu.EncodePhoneNumber ("123".toList)).1 = "123".toList ∧
    Pdu.DecodePhoneNumber (Pdu.EncodePhoneNumber ('+' :: "123".toList)).2
        (Pdu.EncodePhoneNumber ('+' :: "123".toList)).1 = '+' :: "123".toList :=
  ⟨by decide,
    (phoneNumber_roundtrip ("123".toList) (by decide)).1.1,
    (phoneNumber_roundtrip ("123".toList) (by decide)).2.1⟩

/-- Witness for C10 at the one-byte input `[0]`. -/
theorem decodeUCS2_odd_length_empty_witness :
    ([0] : List Nat).length % 2 = 1 ∧
    (Pdu.DecodeUCS2 [0] = Pdu.DecodeUCS2 [] ∧ Pdu.DecodeUCS2 [0] = []) :=
  ⟨by decide, decodeUCS2_odd_length_empty [0] (by decide)⟩
